import Mathlib

/-!
Verification development for the modular-concurrency repository
(barrier primitives, concurrent task queue, segmented bitonic sorting engine).

The C++ sources are shallowly embedded:

* the in-place merge kernels of `examples/sorting/include/merge.h` become
  pure functions on `List Int` (a backward array traversal with a descending
  index becomes a forward traversal of the reversed list);
* the segmented bitonic sort of `examples/sorting/include/bitonicsort.h`
  (`sequential_sort`) and of `sorting::bitonicsort::segmented` becomes a
  function on the list of segments, with every loop translated to a
  structurally recursive function (an explicit fuel argument replaces the
  non-structural `k <<= 1` / `j >>= 1` loop headers; the fuel is always
  sufficient at the call sites used);
* the two barrier `Wait` bodies become single-caller transition functions
  over the shared `(spinning_threads_, sense_/step_)` state;
* the non-blocking (lock-free) sort's stage-counter protocol becomes an
  interleaving step relation over worker program states and the shared
  vector of per-segment counters;
* `BlockingTaskQueue` becomes a functional FIFO on lists;
* `merge::Scatter`'s byte counting is modelled on lists of bytes.
-/

namespace Modcncy

/-! ### Merge kernels (`examples/sorting/include/merge.h`) -/

/-- The single while-loop shape shared by all eight merge kernels of
`merge.h`: repeatedly compare the current candidates of the two traversals
with `cmp` (the source's `segment1[i] < segment2[j]`, resp. `>`), copy the
winning element into the buffer, then drain whichever traversal is left.
The fuel argument makes the recursion structural; it is initialized to the
total input length, which is always enough. -/
def mergeLoopF (cmp : α → α → Bool) : Nat → List α → List α → List α
  | _, [], ys => ys
  | _, x :: xs, [] => x :: xs
  | 0, xs, ys => xs ++ ys
  | fuel + 1, x :: xs, y :: ys =>
    if cmp x y then x :: mergeLoopF cmp fuel xs (y :: ys)
    else y :: mergeLoopF cmp fuel (x :: xs) ys

/-- The merge loop with its fuel set to the number of remaining elements. -/
def mergeLoop (cmp : α → α → Bool) (xs ys : List α) : List α :=
  mergeLoopF cmp (xs.length + ys.length) xs ys

/-- The comparison `segment1[i] < segment2[j]` of the `MergeUp*` kernels,
instantiated at `int` data. -/
def ltInt (a b : Int) : Bool := a < b

/-- The comparison `segment1[i] > segment2[j]` of the `MergeDn*` kernels,
instantiated at `int` data. -/
def gtInt (a b : Int) : Bool := a > b

/-- merge.h `MergeUpFromUpUp`: both indices start at 0 and move up. -/
def MergeUpFromUpUp (s1 s2 : List Int) : List Int := mergeLoop ltInt s1 s2

/-- merge.h `MergeUpFromUpDn`: `i` starts at 0 moving up, `j` starts at
`size-1` moving down, i.e. `segment2` is consumed in reverse. -/
def MergeUpFromUpDn (s1 s2 : List Int) : List Int := mergeLoop ltInt s1 s2.reverse

/-- merge.h `MergeUpFromDnUp`: `segment1` is consumed in reverse. -/
def MergeUpFromDnUp (s1 s2 : List Int) : List Int := mergeLoop ltInt s1.reverse s2

/-- merge.h `MergeUpFromDnDn`: both segments are consumed in reverse. -/
def MergeUpFromDnDn (s1 s2 : List Int) : List Int :=
  mergeLoop ltInt s1.reverse s2.reverse

/-- merge.h `MergeDnFromUpUp`: both indices start at `size-1` moving down,
and the comparison is `segment1[i] > segment2[j]`. -/
def MergeDnFromUpUp (s1 s2 : List Int) : List Int :=
  mergeLoop gtInt s1.reverse s2.reverse

/-- merge.h `MergeDnFromUpDn`: `segment1` is consumed in reverse. -/
def MergeDnFromUpDn (s1 s2 : List Int) : List Int := mergeLoop gtInt s1.reverse s2

/-- merge.h `MergeDnFromDnUp`: `segment2` is consumed in reverse. -/
def MergeDnFromDnUp (s1 s2 : List Int) : List Int := mergeLoop gtInt s1 s2.reverse

/-- merge.h `MergeDnFromDnDn`: both indices move up. -/
def MergeDnFromDnDn (s1 s2 : List Int) : List Int := mergeLoop gtInt s1 s2

/-- merge.h `MergeUp`'s direction dispatch (`l = 0`, `r = size - 1`;
`segment[l]` is the head and `segment[r]` the last element of the segment).
Returns the contents of the scratch buffer before `Scatter`. -/
def MergeUpBuf (s1 s2 : List Int) : List Int :=
  if s1.headD 0 < s1.getLastD 0 ∧ s2.headD 0 < s2.getLastD 0 then
    MergeUpFromUpUp s1 s2
  else if s1.headD 0 < s1.getLastD 0 ∧ s2.headD 0 > s2.getLastD 0 then
    MergeUpFromUpDn s1 s2
  else if s1.headD 0 > s1.getLastD 0 ∧ s2.headD 0 < s2.getLastD 0 then
    MergeUpFromDnUp s1 s2
  else
    MergeUpFromDnDn s1 s2

/-- merge.h `MergeDn`'s direction dispatch. -/
def MergeDnBuf (s1 s2 : List Int) : List Int :=
  if s1.headD 0 < s1.getLastD 0 ∧ s2.headD 0 < s2.getLastD 0 then
    MergeDnFromUpUp s1 s2
  else if s1.headD 0 < s1.getLastD 0 ∧ s2.headD 0 > s2.getLastD 0 then
    MergeDnFromUpDn s1 s2
  else if s1.headD 0 > s1.getLastD 0 ∧ s2.headD 0 < s2.getLastD 0 then
    MergeDnFromDnUp s1 s2
  else
    MergeDnFromDnDn s1 s2

/-- merge.h `MergeUp` followed by `Scatter` (at matching element width):
the first `size` buffer elements are copied back to `segment1` and the next
`size` to `segment2`, where `size` is the segment length passed by every
caller. -/
def MergeUpPair (s1 s2 : List Int) : List Int × List Int :=
  let buf := MergeUpBuf s1 s2
  (buf.take s1.length, (buf.drop s1.length).take s1.length)

/-- merge.h `MergeDn` followed by `Scatter`. -/
def MergeDnPair (s1 s2 : List Int) : List Int × List Int :=
  let buf := MergeDnBuf s1 s2
  (buf.take s1.length, (buf.drop s1.length).take s1.length)

/-! ### Segmented bitonic sort, sequential mode
(`bitonicsort::internal::sequential_sort` of
`examples/sorting/include/bitonicsort.h`, identical in structure to
`sorting::bitonicsort::segmented` of the merged snapshot). The flat input
range is represented by its list of consecutive `segment_size`-element
segments; `&*(begin + i * segment_size)` is segment `i`. -/

/-- Split a flat list into consecutive chunks of `s` elements (the view of
the input range as `data_size / segment_size` segments). Fuel-driven so the
definition is structurally recursive. -/
def chunksF (s : Nat) : Nat → List α → List (List α)
  | 0, _ => []
  | _, [] => []
  | fuel + 1, l => l.take s :: chunksF s fuel (l.drop s)

/-- Split a flat list into consecutive chunks of `s` elements. -/
def chunks (s : Nat) (l : List α) : List (List α) :=
  if s = 0 then [] else chunksF s l.length l

/-- The initial per-segment local sort
(`std::sort(begin + i, begin + i + segment_size)`). -/
def localSort (seg : List Int) : List Int := seg.insertionSort (fun a b => a ≤ b)

/-- The body of the bitonic merging network's inner loop for index `i`:
when `i < (i XOR j)`, merge segments `i` and `i XOR j` up when
`(i AND k) == 0` and down otherwise, writing both halves back. -/
def istep (k j : Nat) (segs : List (List Int)) (i : Nat) : List (List Int) :=
  let ij := i ^^^ j
  if i < ij then
    let s1 := segs.getD i []
    let s2 := segs.getD ij []
    let p := if i &&& k = 0 then MergeUpPair s1 s2 else MergeDnPair s1 s2
    (segs.set i p.1).set ij p.2
  else segs

/-- The inner loop `for (i = 0; i < num_segments; ++i)` of the network. -/
def substage (k j : Nat) (segs : List (List Int)) : List (List Int) :=
  (List.range segs.length).foldl (istep k j) segs

/-- The middle loop `for (j = k >> 1; j > 0; j >>= 1)`, fuel-driven
(halving `j` is not structural); fuel `j` suffices since `j` reaches `0`
after at most `j` halvings. -/
def jloopF (k : Nat) : Nat → Nat → List (List Int) → List (List Int)
  | _, 0, segs => segs
  | 0, _ + 1, segs => segs
  | fuel + 1, j + 1, segs => jloopF k fuel ((j + 1) / 2) (substage k (j + 1) segs)

/-- The middle loop of the network started at a given `j`. -/
def jloop (k j : Nat) (segs : List (List Int)) : List (List Int) :=
  jloopF k j j segs

/-- The outer loop `for (k = 2; k <= num_segments; k <<= 1)`, fuel-driven;
fuel `n` suffices since `k` doubles from `2` and exceeds `n` after at most
`n` doublings. -/
def kloopF (n : Nat) : Nat → Nat → List (List Int) → List (List Int)
  | 0, _, segs => segs
  | fuel + 1, k, segs =>
    if k ≤ n then kloopF n fuel (2 * k) (jloop k (k / 2) segs) else segs

/-- The bitonic merging network over the list of (locally sorted) segments:
the full `k`/`j`/`i` loop nest of `sequential_sort`. -/
def mergingNetwork (n : Nat) (segs : List (List Int)) : List (List Int) :=
  kloopF n n 2 segs

/-- `bitonicsort::internal::sequential_sort` (= `bitonicsort::segmented`):
locally sort every `segment_size`-sized segment, then run the bitonic
merging network over the `data_size / segment_size` segments, in place. -/
def sequentialSort (segmentSize : Nat) (data : List Int) : List Int :=
  let numSegments := data.length / segmentSize
  ((chunks segmentSize data).map localSort |> mergingNetwork numSegments).flatten

/-! ### Central counter barriers
(`central_sense_counter_barrier.cc` / `central_step_counter_barrier.cc`).
The shared state is the pair `(spinning_threads_, sense_/step_)`; the epoch
word is an unsigned `w`-bit integer, modelled as a natural number below
`2 ^ w` with arithmetic modulo `2 ^ w` (the C++ code has `w = 32`).
`Wait` is embedded as the transition taken by one caller: either the
pre-increment value of `spinning_threads_` is below `num_threads - 1` and
the caller enters the spin loop (where the wait policy is invoked), or it
is the last arrival and atomically resets the counter and advances the
epoch. -/

/-- Shared barrier state: `spinning_threads_` (a C++ `int`) and the epoch
word `sense_` / `step_` (a C++ `unsigned`). -/
structure BarrierState where
  spinning : Int
  epoch : Nat
deriving DecidableEq, Repr

/-- Outcome of one call to `Wait`: the caller either starts spinning
(repeatedly invoking the wait policy until the epoch changes) or, as the
last arrival, releases the barrier leaving the given shared state. -/
inductive WaitOutcome where
  | spins
  | releases (st : BarrierState)
deriving DecidableEq, Repr

/-- `CentralSenseCounterBarrier::Wait`: snapshot `sense_`, `fetch_add` the
counter; a non-last arrival spins, the last arrival stores `0` to the
counter and the bitwise complement of the snapshot (on `w` bits:
`2^w - 1 - local`) to `sense_`. -/
def senseWait (w : Nat) (numThreads : Int) (st : BarrierState) : WaitOutcome :=
  let localSense := st.epoch
  if st.spinning < numThreads - 1 then .spins
  else .releases ⟨0, 2 ^ w - 1 - localSense⟩

/-- `CentralStepCounterBarrier::Wait`: identical shape, but the last arrival
increments `step_` by one, with unsigned (mod `2^w`) wraparound. -/
def stepWait (w : Nat) (numThreads : Int) (st : BarrierState) : WaitOutcome :=
  let currentStep := st.epoch
  if st.spinning < numThreads - 1 then .spins
  else .releases ⟨0, (currentStep + 1) % 2 ^ w⟩

/-- The exit test of the step barrier's spin loop
(`while (step_.load(acquire) == current_step)`): a waiter leaves the loop
exactly when the observed epoch differs from its snapshot. -/
def stepSpinExit (observed localSnap : Nat) : Bool := observed ≠ localSnap

/-! ### Blocking task queue
(`containers/concurrent_task_queues/blocking_task_queue.cc`). The
`std::deque` protected by the mutex is a list whose head is the front;
tasks are opaque values of a type parameter. `Pop` of an empty queue
returns `nullptr`, modelled as `none`. -/

/-- `BlockingTaskQueue::Push`: append the task at the back. -/
def queuePush (q : List α) (task : α) : List α := q ++ [task]

/-- `BlockingTaskQueue::Pop`: if the queue is not empty, remove and return
the front task; otherwise return the null sentinel and leave the queue
unchanged. The function is total: it never waits for a producer. -/
def queuePop : List α → Option α × List α
  | [] => (none, [])
  | task :: rest => (some task, rest)

/-! ### `merge::Scatter` at byte level (merge.h).
`Scatter` computes `bytes = size * sizeof(int)` and `memcpy`s that many
bytes from the buffer into `segment1`, and from `buffer + size` (a pointer
offset of `size` elements, i.e. `size * sizeof(T)` bytes) into `segment2`.
Memory is modelled as lists of bytes; an element of type `T` occupies
`tBytes` bytes and `sizeof(int) = 4`. -/

/-- `std::memcpy(dst, src, cnt)` on byte lists: the first `cnt` bytes of
`src` replace the first `cnt` bytes of `dst`. -/
def memcpyBytes (dst src : List β) (cnt : Nat) : List β :=
  src.take cnt ++ dst.drop cnt

/-- merge.h `Scatter` on byte-level memory, for element width `tBytes`:
`bytes = size * sizeof(int)` bytes are copied from the buffer into
`segment1` and from byte offset `size * tBytes` of the buffer (the pointer
`buffer + size`) into `segment2`. -/
def ScatterBytes (tBytes : Nat) (buffer seg1 seg2 : List β) (size : Nat) :
    List β × List β :=
  let bytes := size * 4
  (memcpyBytes seg1 buffer bytes,
   memcpyBytes seg2 (buffer.drop (size * tBytes)) bytes)

/-! ### Provenance-tagged merge kernels.
To talk about which input segment a merged element came from, elements are
tagged with an origin marker that the comparison ignores: the kernels
compare only the `int` value, exactly as `segment1[i] < segment2[j]` does. -/

/-- A data element together with its provenance tag (`0` for the left
segment `segment1`, `1` for the right segment `segment2`). -/
abbrev Tagged := Int × Nat

/-- The `MergeUp*` comparison on tagged elements: `segment1[i] < segment2[j]`
compares the values only. -/
def ltVal (a b : Tagged) : Bool := a.1 < b.1

/-- The `MergeDn*` comparison on tagged elements. -/
def gtVal (a b : Tagged) : Bool := a.1 > b.1

/-- `MergeUpFromUpUp` on provenance-tagged elements. -/
def mergeUpTagged (s1 s2 : List Tagged) : List Tagged := mergeLoop ltVal s1 s2

/-- `MergeDnFromUpUp` on provenance-tagged elements (both inputs consumed
in reverse, comparison `>` on values). -/
def mergeDnTagged (s1 s2 : List Tagged) : List Tagged :=
  mergeLoop gtVal s1.reverse s2.reverse

/-! ### Lock-free (non-blocking) sort: the per-segment stage-counter
protocol (`sorting::bitonicsort::lockfree` /
`bitonicsort::internal::parallel_nonblocking_sort`). Each worker executes a
statically known sequence of synchronization-relevant actions; data
movement is irrelevant to the counter protocol and is not modelled. The
shared state is the vector `segment_stage_count`; the actions are
interleaved by a step relation. -/

/-- One synchronization-relevant action of a lock-free worker:
`sortSeg s` is the local sort of segment `s` followed by its
`fetch_add(1)`; `mergeSeg s1 s2` is the spin-wait on both counters, the
merge, and the two `fetch_add(1)`s; `bumpStage` is `++my_stage`. -/
inductive Instr where
  | sortSeg (s : Nat)
  | mergeSeg (s1 s2 : Nat)
  | bumpStage
deriving DecidableEq, Repr

/-- Does an action complete a stage of segment `s` (i.e. increment
`segment_stage_count[s]`)? -/
def touches (s : Nat) : Instr → Bool
  | .sortSeg a => a == s
  | .mergeSeg a b => a == s || b == s
  | .bumpStage => false

/-- Wellformedness of a generated action for `n` segments: all referenced
segment ids are in range and a merge pairs two distinct segments. -/
def instrWF (n : Nat) : Instr → Bool
  | .sortSeg s => s < n
  | .mergeSeg a b => a != b && decide (a < n) && decide (b < n)
  | .bumpStage => true

/-- The inner loop `for (i = low_segment; i < high_segment; ++i)` of one
`(k, j)` step: a merge of the pair `(i, i XOR j)` for every owned `i` with
`i < (i XOR j)`. -/
def mergeRow (j low cnt : Nat) : List Instr :=
  (List.range' low cnt).filterMap fun i =>
    if i < i ^^^ j then some (.mergeSeg i (i ^^^ j)) else none

/-- The loop `for (j = k >> 1; j > 0; j >>= 1)` of a lock-free worker:
each `(k, j)` contributes its merge row followed by `++my_stage`
(fuel-driven as in the sequential embedding). -/
def jInstrsF : Nat → Nat → Nat → Nat → List Instr
  | 0, _, _, _ => []
  | _ + 1, 0, _, _ => []
  | fuel + 1, j + 1, low, cnt =>
    mergeRow (j + 1) low cnt ++ .bumpStage :: jInstrsF fuel ((j + 1) / 2) low cnt

/-- The loop `for (k = 2; k <= num_segments; k <<= 1)` of a lock-free
worker (fuel-driven). -/
def kInstrsF (n : Nat) : Nat → Nat → Nat → Nat → List Instr
  | 0, _, _, _ => []
  | fuel + 1, k, low, cnt =>
    if k ≤ n then jInstrsF (k / 2) (k / 2) low cnt ++ kInstrsF n fuel (2 * k) low cnt
    else []

/-- The full action sequence of lock-free worker `w` out of `T` over `n`
segments: local sorts of the owned block
`[w * (n/T), (w+1) * (n/T))` (each incrementing its segment counter),
then `++my_stage`, then the bitonic merging network loops. -/
def workerProgram (n T w : Nat) : List Instr :=
  let per := n / T
  let low := w * per
  ((List.range' low per).map .sortSeg) ++ .bumpStage :: kInstrsF n n 2 low per

/-- The state of one worker: its private `my_stage`, the actions already
performed, and the actions still to be performed. -/
structure WState where
  stage : Nat
  done : List Instr
  todo : List Instr
deriving DecidableEq, Repr

/-- Global state of the lock-free sort: the shared `segment_stage_count`
vector and the per-worker states. -/
structure LFState where
  counts : List Nat
  workers : List WState
deriving DecidableEq, Repr

/-- `segment_stage_count[s].fetch_add(1)`. -/
def bumpCount (c : List Nat) (s : Nat) : List Nat := c.set s (c.getD s 0 + 1)

/-- The interleaving step relation of the lock-free sort. One worker
(isolated as `pre ++ worker :: post`) executes its next action:
a local sort increments the segment's counter; `++my_stage` increments the
private stage; a merge fires only when the worker has observed both
`segment_stage_count[segment1_id]` and `segment_stage_count[segment2_id]`
equal to its `my_stage` (the exit condition of the two spin loops), and
then increments both counters. -/
inductive Step : LFState → LFState → Prop where
  | sortSeg (counts : List Nat) (pre post : List WState) (stage : Nat)
      (done : List Instr) (s : Nat) (rest : List Instr) :
      Step ⟨counts, pre ++ ⟨stage, done, .sortSeg s :: rest⟩ :: post⟩
           ⟨bumpCount counts s, pre ++ ⟨stage, done ++ [.sortSeg s], rest⟩ :: post⟩
  | bumpStage (counts : List Nat) (pre post : List WState) (stage : Nat)
      (done rest : List Instr) :
      Step ⟨counts, pre ++ ⟨stage, done, .bumpStage :: rest⟩ :: post⟩
           ⟨counts, pre ++ ⟨stage + 1, done ++ [.bumpStage], rest⟩ :: post⟩
  | mergeSeg (counts : List Nat) (pre post : List WState) (stage : Nat)
      (done : List Instr) (s1 s2 : Nat) (rest : List Instr)
      (hobs1 : counts.getD s1 0 = stage) (hobs2 : counts.getD s2 0 = stage) :
      Step ⟨counts, pre ++ ⟨stage, done, .mergeSeg s1 s2 :: rest⟩ :: post⟩
           ⟨bumpCount (bumpCount counts s1) s2,
            pre ++ ⟨stage, done ++ [.mergeSeg s1 s2], rest⟩ :: post⟩

/-- The initial state of the lock-free sort: all `n` counters zero
(`segment_stage_count[i] = 0`), every worker at `my_stage = 0` with its
whole program ahead of it. -/
def initState (n T : Nat) : LFState :=
  ⟨List.replicate n 0, (List.range T).map fun w => ⟨0, [], workerProgram n T w⟩⟩

/-- The states reachable by interleaving worker actions from the initial
state. -/
def Reachable (n T : Nat) : LFState → Prop :=
  Relation.ReflTransGen Step (initState n T)

/-- How many completed actions of worker `ws` completed a stage of
segment `s`. -/
def doneTouch (s : Nat) (ws : WState) : Nat := (ws.done.filter (touches s)).length

/-- The number of stages segment `s` has completed so far: its local sort
(if performed) plus every merge involving it already performed, summed over
all workers. -/
def completedStages (s : Nat) (st : LFState) : Nat :=
  (st.workers.map (doneTouch s)).sum

/-- The central counter invariant of the protocol: `segment_stage_count`
has one entry per segment and `count[s]` equals the number of stages
segment `s` has completed. -/
def CountInv (n : Nat) (st : LFState) : Prop :=
  st.counts.length = n ∧ ∀ s, s < n → st.counts.getD s 0 = completedStages s st

/-- All pending actions of all workers are wellformed for `n` segments. -/
def TodoWF (n : Nat) (st : LFState) : Prop :=
  ∀ ws ∈ st.workers, ∀ ins ∈ ws.todo, instrWF n ins = true

/-- Characterization of a step that consumed a `sortSeg` action. -/
def SortShape (st st' : LFState) : Prop :=
  ∃ counts pre post stage done s rest,
    st = ⟨counts, pre ++ ⟨stage, done, .sortSeg s :: rest⟩ :: post⟩ ∧
    st' = ⟨bumpCount counts s, pre ++ ⟨stage, done ++ [.sortSeg s], rest⟩ :: post⟩

/-- Characterization of a step that consumed a `bumpStage` action. -/
def BumpShape (st st' : LFState) : Prop :=
  ∃ counts pre post stage done rest,
    st = ⟨counts, pre ++ ⟨stage, done, .bumpStage :: rest⟩ :: post⟩ ∧
    st' = ⟨counts, pre ++ ⟨stage + 1, done ++ [.bumpStage], rest⟩ :: post⟩

/-- Characterization of a step that consumed a `mergeSeg` action: the
worker had observed both segment counters equal to its private `my_stage`,
and the step increments both counters. -/
def MergeShape (st st' : LFState) : Prop :=
  ∃ counts pre post stage done s1 s2 rest,
    st = ⟨counts, pre ++ ⟨stage, done, .mergeSeg s1 s2 :: rest⟩ :: post⟩ ∧
    counts.getD s1 0 = stage ∧ counts.getD s2 0 = stage ∧
    st' = ⟨bumpCount (bumpCount counts s1) s2,
           pre ++ ⟨stage, done ++ [.mergeSeg s1 s2], rest⟩ :: post⟩

/-! ### Counting the `(k, j)` stages of the merging network.
Each iteration of the middle `j` loop is one stage; in the blocking
(barrier) variant each worker calls `barrier->Wait` exactly once at the end
of each `(k, j)` iteration, after the one `Wait` that follows the local
sort, so this count is also that worker's number of end-of-stage waits. -/

/-- Number of iterations of `for (j = k >> 1; j > 0; j >>= 1)`
(fuel-driven like `jloopF`). -/
def jStageCountF : Nat → Nat → Nat
  | 0, _ => 0
  | _ + 1, 0 => 0
  | fuel + 1, j + 1 => 1 + jStageCountF fuel ((j + 1) / 2)

/-- Number of `(k, j)` iterations of
`for (k = 2; k <= n; k <<= 1) for (j = k >> 1; j > 0; j >>= 1)`
(fuel-driven like `kloopF`). -/
def kStageCountF (n : Nat) : Nat → Nat → Nat
  | 0, _ => 0
  | fuel + 1, k =>
    if k ≤ n then jStageCountF (k / 2) (k / 2) + kStageCountF n fuel (2 * k)
    else 0

/-- The number of `(k, j)` stages of the bitonic merging network over `n`
segments (excluding the initial local-sort stage). -/
def networkStageCount (n : Nat) : Nat := kStageCountF n n 2

/-! ### Reference results (modelled from the spec's words, for comparison
with the source-derived kernels). -/

/-- Modelled from the spec: the ascending sort of the concatenation of the
two segments. -/
def ascSortConcat (s1 s2 : List Int) : List Int :=
  (s1 ++ s2).insertionSort (fun a b => a ≤ b)

/-- Modelled from the spec: "the same result as sorting the concatenation
and projecting back", the first half written back to the first segment and
the second half to the second segment. -/
def mergeUpSpec (s1 s2 : List Int) : List Int × List Int :=
  ((ascSortConcat s1 s2).take s1.length, (ascSortConcat s1 s2).drop s1.length)

/-- Modelled from the spec: the descending sort of the concatenation (the
reference result for the `MergeDn*` kernels). -/
def descSortConcat (s1 s2 : List Int) : List Int := (ascSortConcat s1 s2).reverse

/-! ### General lemmas about the fuel-driven merge loop -/

theorem mergeLoopF_eq_of_le (cmp : α → α → Bool) :
    ∀ (f g : Nat) (xs ys : List α), xs.length + ys.length ≤ f →
      xs.length + ys.length ≤ g →
      mergeLoopF cmp f xs ys = mergeLoopF cmp g xs ys := by
  intro f
  induction f with
  | zero =>
    intro g xs ys hf _
    match xs, ys with
    | [], ys => simp [mergeLoopF]
    | x :: xs, [] => simp [mergeLoopF]
    | x :: xs, y :: ys => simp at hf
  | succ f ih =>
    intro g xs ys hf hg
    match xs, ys with
    | [], ys => simp [mergeLoopF]
    | x :: xs, [] => simp [mergeLoopF]
    | x :: xs, y :: ys =>
      cases g with
      | zero => simp at hg
      | succ g =>
        simp only [mergeLoopF]
        simp only [List.length_cons] at hf hg
        cases hc : cmp x y
        · simp only [hc, Bool.false_eq_true, if_false]
          exact congrArg (y :: ·)
            (ih g (x :: xs) ys (by simp; omega) (by simp; omega))
        · simp only [hc, if_true]
          exact congrArg (x :: ·)
            (ih g xs (y :: ys) (by simp; omega) (by simp; omega))

theorem mergeLoopF_eq_mergeLoop (cmp : α → α → Bool) (f : Nat) (xs ys : List α)
    (hf : xs.length + ys.length ≤ f) :
    mergeLoopF cmp f xs ys = mergeLoop cmp xs ys :=
  mergeLoopF_eq_of_le cmp f (xs.length + ys.length) xs ys hf le_rfl

theorem mergeLoop_nil_left (cmp : α → α → Bool) (ys : List α) :
    mergeLoop cmp [] ys = ys := by
  cases ys <;> rfl

theorem mergeLoop_nil_right (cmp : α → α → Bool) (xs : List α) :
    mergeLoop cmp xs [] = xs := by
  cases xs <;> rfl

theorem mergeLoop_cons_cons (cmp : α → α → Bool) (x y : α) (xs ys : List α) :
    mergeLoop cmp (x :: xs) (y :: ys) =
      if cmp x y then x :: mergeLoop cmp xs (y :: ys)
      else y :: mergeLoop cmp (x :: xs) ys := by
  have hlen : (x :: xs).length + (y :: ys).length =
      (xs.length + ys.length + 1) + 1 := by
    simp only [List.length_cons]; omega
  unfold mergeLoop
  rw [hlen]
  simp only [mergeLoopF]
  cases hc : cmp x y
  · simp only [hc, Bool.false_eq_true, if_false]
    exact congrArg (y :: ·)
      (mergeLoopF_eq_of_le cmp _ _ (x :: xs) ys
        (by simp only [List.length_cons]; omega)
        (by simp only [List.length_cons]; omega))
  · simp only [hc, if_true]
    exact congrArg (x :: ·)
      (mergeLoopF_eq_of_le cmp _ _ xs (y :: ys)
        (by simp only [List.length_cons]; omega)
        (by simp only [List.length_cons]; omega))

/-! ### Claim theorems -/

/-! ### Correctness of the eight directional merge kernels on their
advertised input directions. These support the diagnosis of the `MergeUp`
dispatch defect: every directional kernel agrees with the reference sort of
the concatenation whenever its inputs really have the advertised
directions; only the strict-comparison direction dispatch goes wrong. -/

theorem mergeLoop_perm_aux (cmp : α → α → Bool) :
    ∀ (N : Nat) (xs ys : List α), xs.length + ys.length ≤ N →
      (mergeLoop cmp xs ys).Perm (xs ++ ys) := by
  intro N
  induction N with
  | zero =>
    intro xs ys h
    have hx0 : xs = [] := by
      cases xs with
      | nil => rfl
      | cons a as => simp at h
    subst hx0
    simp [mergeLoop_nil_left]
  | succ N ih =>
    intro xs ys h
    match xs, ys with
    | [], ys => simp [mergeLoop_nil_left]
    | x :: xs, [] => simp [mergeLoop_nil_right]
    | x :: xs, y :: ys =>
      rw [mergeLoop_cons_cons]
      simp only [List.length_cons] at h
      cases hc : cmp x y
      · simp only [hc, Bool.false_eq_true, if_false]
        refine List.Perm.trans (List.Perm.cons y (ih (x :: xs) ys (by simp; omega))) ?_
        exact (List.perm_middle).symm
      · simp only [hc, if_true]
        exact List.Perm.cons x (ih xs (y :: ys) (by simp; omega))

theorem mergeLoop_perm (cmp : α → α → Bool) (xs ys : List α) :
    (mergeLoop cmp xs ys).Perm (xs ++ ys) :=
  mergeLoop_perm_aux cmp (xs.length + ys.length) xs ys le_rfl

theorem mergeLoop_sorted_le_aux :
    ∀ (N : Nat) (xs ys : List Int), xs.length + ys.length ≤ N →
      xs.Sorted (fun a b => a ≤ b) → ys.Sorted (fun a b => a ≤ b) →
      (mergeLoop ltInt xs ys).Sorted (fun a b => a ≤ b) := by
  intro N
  induction N with
  | zero =>
    intro xs ys h hx hy
    have hx0 : xs = [] := by
      cases xs with
      | nil => rfl
      | cons a as => simp at h
    subst hx0
    rw [mergeLoop_nil_left]
    exact hy
  | succ N ih =>
    intro xs ys h hx hy
    match xs, ys with
    | [], ys => rw [mergeLoop_nil_left]; exact hy
    | x :: xs, [] => rw [mergeLoop_nil_right]; exact hx
    | x :: xs, y :: ys =>
      rw [mergeLoop_cons_cons]
      simp only [List.length_cons] at h
      obtain ⟨hxhead, hxtail⟩ := List.sorted_cons.mp hx
      obtain ⟨hyhead, hytail⟩ := List.sorted_cons.mp hy
      cases hc : ltInt x y
      · have hyx : y ≤ x := by
          have := of_decide_eq_false hc
          omega
        simp only [hc, Bool.false_eq_true, if_false]
        refine List.sorted_cons.mpr ⟨?_, ih (x :: xs) ys (by simp; omega) hx hytail⟩
        intro b hb
        have hb2 := (mergeLoop_perm ltInt (x :: xs) ys).mem_iff.mp hb
        rcases List.mem_append.mp hb2 with hbx | hby
        · rcases List.mem_cons.mp hbx with rfl | hbx
          · exact hyx
          · exact le_trans hyx (hxhead b hbx)
        · exact hyhead b hby
      · have hxy : x < y := of_decide_eq_true hc
        simp only [hc, if_true]
        refine List.sorted_cons.mpr ⟨?_, ih xs (y :: ys) (by simp; omega) hxtail hy⟩
        intro b hb
        have hb2 := (mergeLoop_perm ltInt xs (y :: ys)).mem_iff.mp hb
        rcases List.mem_append.mp hb2 with hbx | hby
        · exact hxhead b hbx
        · rcases List.mem_cons.mp hby with rfl | hby
          · exact le_of_lt hxy
          · exact le_trans (le_of_lt hxy) (hyhead b hby)

theorem mergeLoop_sorted_ge_aux :
    ∀ (N : Nat) (xs ys : List Int), xs.length + ys.length ≤ N →
      xs.Sorted (fun a b => a ≥ b) → ys.Sorted (fun a b => a ≥ b) →
      (mergeLoop gtInt xs ys).Sorted (fun a b => a ≥ b) := by
  intro N
  induction N with
  | zero =>
    intro xs ys h hx hy
    have hx0 : xs = [] := by
      cases xs with
      | nil => rfl
      | cons a as => simp at h
    subst hx0
    rw [mergeLoop_nil_left]
    exact hy
  | succ N ih =>
    intro xs ys h hx hy
    match xs, ys with
    | [], ys => rw [mergeLoop_nil_left]; exact hy
    | x :: xs, [] => rw [mergeLoop_nil_right]; exact hx
    | x :: xs, y :: ys =>
      rw [mergeLoop_cons_cons]
      simp only [List.length_cons] at h
      obtain ⟨hxhead, hxtail⟩ := List.sorted_cons.mp hx
      obtain ⟨hyhead, hytail⟩ := List.sorted_cons.mp hy
      cases hc : gtInt x y
      · have hyx : x ≤ y := by
          have := of_decide_eq_false hc
          omega
        simp only [hc, Bool.false_eq_true, if_false]
        refine List.sorted_cons.mpr ⟨?_, ih (x :: xs) ys (by simp; omega) hx hytail⟩
        intro b hb
        have hb2 := (mergeLoop_perm gtInt (x :: xs) ys).mem_iff.mp hb
        rcases List.mem_append.mp hb2 with hbx | hby
        · rcases List.mem_cons.mp hbx with rfl | hbx
          · exact hyx
          · exact le_trans (hxhead b hbx) hyx
        · exact hyhead b hby
      · have hxy : y < x := of_decide_eq_true hc
        simp only [hc, if_true]
        refine List.sorted_cons.mpr ⟨?_, ih xs (y :: ys) (by simp; omega) hxtail hy⟩
        intro b hb
        have hb2 := (mergeLoop_perm gtInt xs (y :: ys)).mem_iff.mp hb
        rcases List.mem_append.mp hb2 with hbx | hby
        · exact hxhead b hbx
        · rcases List.mem_cons.mp hby with rfl | hby
          · exact le_of_lt hxy
          · exact le_trans (hyhead b hby) (le_of_lt hxy)

theorem ascSortConcat_sorted (s1 s2 : List Int) :
    (ascSortConcat s1 s2).Sorted (fun a b => a ≤ b) :=
  List.sorted_insertionSort _ _

theorem ascSortConcat_perm (s1 s2 : List Int) :
    (ascSortConcat s1 s2).Perm (s1 ++ s2) :=
  List.perm_insertionSort _ _

theorem descSortConcat_sorted (s1 s2 : List Int) :
    (descSortConcat s1 s2).Sorted (fun a b => a ≥ b) := by
  rw [descSortConcat, List.Sorted, List.pairwise_reverse]
  exact ascSortConcat_sorted s1 s2

theorem descSortConcat_perm (s1 s2 : List Int) :
    (descSortConcat s1 s2).Perm (s1 ++ s2) :=
  (List.reverse_perm _).trans (ascSortConcat_perm s1 s2)

theorem MergeUpFromUpUp_eq_spec (s1 s2 : List Int)
    (h1 : s1.Sorted (fun a b => a ≤ b)) (h2 : s2.Sorted (fun a b => a ≤ b)) :
    MergeUpFromUpUp s1 s2 = ascSortConcat s1 s2 :=
  List.eq_of_perm_of_sorted
    ((mergeLoop_perm ltInt s1 s2).trans (ascSortConcat_perm s1 s2).symm)
    (mergeLoop_sorted_le_aux _ s1 s2 le_rfl h1 h2)
    (ascSortConcat_sorted s1 s2)

theorem MergeUpFromUpDn_eq_spec (s1 s2 : List Int)
    (h1 : s1.Sorted (fun a b => a ≤ b)) (h2 : s2.Sorted (fun a b => a ≥ b)) :
    MergeUpFromUpDn s1 s2 = ascSortConcat s1 s2 := by
  have h2r : s2.reverse.Sorted (fun a b => a ≤ b) := by
    rw [List.Sorted, List.pairwise_reverse]; exact h2
  refine List.eq_of_perm_of_sorted ?_
    (mergeLoop_sorted_le_aux _ s1 s2.reverse le_rfl h1 h2r)
    (ascSortConcat_sorted s1 s2)
  refine (mergeLoop_perm ltInt s1 s2.reverse).trans ?_
  exact (List.Perm.append_left s1 (List.reverse_perm s2)).trans
    (ascSortConcat_perm s1 s2).symm

theorem MergeUpFromDnUp_eq_spec (s1 s2 : List Int)
    (h1 : s1.Sorted (fun a b => a ≥ b)) (h2 : s2.Sorted (fun a b => a ≤ b)) :
    MergeUpFromDnUp s1 s2 = ascSortConcat s1 s2 := by
  have h1r : s1.reverse.Sorted (fun a b => a ≤ b) := by
    rw [List.Sorted, List.pairwise_reverse]; exact h1
  refine List.eq_of_perm_of_sorted ?_
    (mergeLoop_sorted_le_aux _ s1.reverse s2 le_rfl h1r h2)
    (ascSortConcat_sorted s1 s2)
  refine (mergeLoop_perm ltInt s1.reverse s2).trans ?_
  exact (List.Perm.append_right s2 (List.reverse_perm s1)).trans
    (ascSortConcat_perm s1 s2).symm

theorem MergeUpFromDnDn_eq_spec (s1 s2 : List Int)
    (h1 : s1.Sorted (fun a b => a ≥ b)) (h2 : s2.Sorted (fun a b => a ≥ b)) :
    MergeUpFromDnDn s1 s2 = ascSortConcat s1 s2 := by
  have h1r : s1.reverse.Sorted (fun a b => a ≤ b) := by
    rw [List.Sorted, List.pairwise_reverse]; exact h1
  have h2r : s2.reverse.Sorted (fun a b => a ≤ b) := by
    rw [List.Sorted, List.pairwise_reverse]; exact h2
  refine List.eq_of_perm_of_sorted ?_
    (mergeLoop_sorted_le_aux _ s1.reverse s2.reverse le_rfl h1r h2r)
    (ascSortConcat_sorted s1 s2)
  refine (mergeLoop_perm ltInt s1.reverse s2.reverse).trans ?_
  exact (List.Perm.append (List.reverse_perm s1) (List.reverse_perm s2)).trans
    (ascSortConcat_perm s1 s2).symm

theorem MergeDnFromUpUp_eq_spec (s1 s2 : List Int)
    (h1 : s1.Sorted (fun a b => a ≤ b)) (h2 : s2.Sorted (fun a b => a ≤ b)) :
    MergeDnFromUpUp s1 s2 = descSortConcat s1 s2 := by
  have h1r : s1.reverse.Sorted (fun a b => a ≥ b) := by
    rw [List.Sorted, List.pairwise_reverse]; exact h1
  have h2r : s2.reverse.Sorted (fun a b => a ≥ b) := by
    rw [List.Sorted, List.pairwise_reverse]; exact h2
  refine List.eq_of_perm_of_sorted ?_
    (mergeLoop_sorted_ge_aux _ s1.reverse s2.reverse le_rfl h1r h2r)
    (descSortConcat_sorted s1 s2)
  refine (mergeLoop_perm gtInt s1.reverse s2.reverse).trans ?_
  exact (List.Perm.append (List.reverse_perm s1) (List.reverse_perm s2)).trans
    (descSortConcat_perm s1 s2).symm

theorem MergeDnFromUpDn_eq_spec (s1 s2 : List Int)
    (h1 : s1.Sorted (fun a b => a ≤ b)) (h2 : s2.Sorted (fun a b => a ≥ b)) :
    MergeDnFromUpDn s1 s2 = descSortConcat s1 s2 := by
  have h1r : s1.reverse.Sorted (fun a b => a ≥ b) := by
    rw [List.Sorted, List.pairwise_reverse]; exact h1
  refine List.eq_of_perm_of_sorted ?_
    (mergeLoop_sorted_ge_aux _ s1.reverse s2 le_rfl h1r h2)
    (descSortConcat_sorted s1 s2)
  refine (mergeLoop_perm gtInt s1.reverse s2).trans ?_
  exact (List.Perm.append_right s2 (List.reverse_perm s1)).trans
    (descSortConcat_perm s1 s2).symm

theorem MergeDnFromDnUp_eq_spec (s1 s2 : List Int)
    (h1 : s1.Sorted (fun a b => a ≥ b)) (h2 : s2.Sorted (fun a b => a ≤ b)) :
    MergeDnFromDnUp s1 s2 = descSortConcat s1 s2 := by
  have h2r : s2.reverse.Sorted (fun a b => a ≥ b) := by
    rw [List.Sorted, List.pairwise_reverse]; exact h2
  refine List.eq_of_perm_of_sorted ?_
    (mergeLoop_sorted_ge_aux _ s1 s2.reverse le_rfl h1 h2r)
    (descSortConcat_sorted s1 s2)
  refine (mergeLoop_perm gtInt s1 s2.reverse).trans ?_
  exact (List.Perm.append_left s1 (List.reverse_perm s2)).trans
    (descSortConcat_perm s1 s2).symm

theorem MergeDnFromDnDn_eq_spec (s1 s2 : List Int)
    (h1 : s1.Sorted (fun a b => a ≥ b)) (h2 : s2.Sorted (fun a b => a ≥ b)) :
    MergeDnFromDnDn s1 s2 = descSortConcat s1 s2 :=
  List.eq_of_perm_of_sorted
    ((mergeLoop_perm gtInt s1 s2).trans (descSortConcat_perm s1 s2).symm)
    (mergeLoop_sorted_ge_aux _ s1 s2 le_rfl h1 h2)
    (descSortConcat_sorted s1 s2)

/-- C1. The claimed postcondition of `sort` — a non-decreasing sequence
containing exactly the original multiset, for every valid input — does not
hold of the code: the direction dispatch of `MergeUp` tests segment
directions with strict comparisons only, so a constant segment paired with
a strictly ascending one falls through to `MergeUpFromDnDn`, which reads
the ascending segment backwards. On the valid input `[1, 2, 3, 3]` with
`segment_size = 2` (both `segment_size` and `num_segments = 2` powers of
two) the sequential sort returns `[2, 1, 3, 3]`, a permutation that is not
sorted. The literal scenario S1 (distinct elements) does hold. -/
theorem sequential_sort_drops_order_on_duplicates :
    sequentialSort 2 [5, 7, 1, 4, 8, 2, 3, 6] = [1, 2, 3, 4, 5, 6, 7, 8] ∧
    sequentialSort 2 [1, 2, 3, 3] = [2, 1, 3, 3] ∧
    ¬ List.Sorted (fun a b : Int => a ≤ b) (sequentialSort 2 [1, 2, 3, 3]) ∧
    (sequentialSort 2 [1, 2, 3, 3]).Perm [1, 2, 3, 3] := by
  refine ⟨by decide, by decide, by decide, by decide⟩

/-- C2. `MergeUp` does not always produce the ascending sort of the
concatenation of two monotone equal-length segments: for the non-decreasing
segments `[1, 2]` and `[3, 3]` the direction dispatch (strict comparisons
of first against last element) selects `MergeUpFromDnDn` and the kernel
writes back `([2, 1], [3, 3])` instead of the reference
`([1, 2], [3, 3])`. -/
theorem merge_up_wrong_on_constant_segment :
    List.Sorted (fun a b : Int => a ≤ b) [1, 2] ∧
    List.Sorted (fun a b : Int => a ≤ b) [3, 3] ∧
    mergeUpSpec [1, 2] [3, 3] = ([1, 2], [3, 3]) ∧
    MergeUpPair [1, 2] [3, 3] = ([2, 1], [3, 3]) ∧
    MergeUpPair [1, 2] [3, 3] ≠ mergeUpSpec [1, 2] [3, 3] := by
  refine ⟨by decide, by decide, by decide, by decide, by decide⟩

/-- C3 (counterexample). The merge kernels do not prefer the element of
the left segment on equality: on tagged single-element segments with equal
values, `MergeUpFromUpUp` (comparison `segment1[i] < segment2[j]`) emits
the right segment's element first, and so does `MergeDnFromUpUp`. -/
theorem merge_tie_not_left_first :
    mergeUpTagged [((7 : Int), 0)] [((7 : Int), 1)] = [(7, 1), (7, 0)] ∧
    mergeUpTagged [((7 : Int), 0)] [((7 : Int), 1)] ≠ [(7, 0), (7, 1)] ∧
    mergeDnTagged [((7 : Int), 0)] [((7 : Int), 1)] = [(7, 1), (7, 0)] := by
  refine ⟨by decide, by decide, by decide⟩

/-- C3 (amended). On equal candidate values the merge kernels prefer the
element from the right segment (`segment2`): the strict comparison fails on
ties, so the `else` branch copies `segment2`'s candidate into the buffer
first, for both the `<`-based up kernels and the `>`-based down kernels. -/
theorem merge_tie_prefers_right_segment (x y : Tagged) (xs ys : List Tagged)
    (hval : x.1 = y.1) :
    mergeUpTagged (x :: xs) (y :: ys) = y :: mergeLoop ltVal (x :: xs) ys ∧
    mergeLoop gtVal (x :: xs) (y :: ys) = y :: mergeLoop gtVal (x :: xs) ys := by
  have hlt : ltVal x y = false := by simp [ltVal, hval]
  have hgt : gtVal x y = false := by simp [gtVal, hval]
  constructor
  · rw [mergeUpTagged, mergeLoop_cons_cons, hlt]
    simp
  · rw [mergeLoop_cons_cons, hgt]
    simp

/-- C3 witness: the amended tie rule at a concrete tie. -/
theorem merge_tie_prefers_right_segment_witness :
    (((5 : Int), (0 : Nat)).1 = ((5 : Int), (1 : Nat)).1) ∧
    (mergeUpTagged [((5 : Int), 0)] [((5 : Int), 1)] =
      ((5 : Int), (1 : Nat)) :: mergeLoop ltVal [((5 : Int), 0)] [] ∧
     mergeLoop gtVal [((5 : Int), 0)] [((5 : Int), 1)] =
      ((5 : Int), (1 : Nat)) :: mergeLoop gtVal [((5 : Int), 0)] []) :=
  ⟨rfl, merge_tie_prefers_right_segment ((5 : Int), 0) ((5 : Int), 1) [] [] rfl⟩

/-- C6. In the step barrier over a `w`-bit unsigned epoch, the last arrival
resets the spinning counter to `0` and sets the epoch to
`(local + 1) mod 2^w`, and the new epoch differs from every prior snapshot
value `local < 2^w` — in particular the spin-exit test
`step_ != current_step` fires even when the increment wraps from
`2^w - 1` to `0`. -/
theorem step_barrier_wait_wraparound (w : Nat) (hw : 1 ≤ w)
    (numThreads : Int) (st : BarrierState)
    (hlast : ¬ st.spinning < numThreads - 1) (he : st.epoch < 2 ^ w) :
    stepWait w numThreads st = .releases ⟨0, (st.epoch + 1) % 2 ^ w⟩ ∧
    stepSpinExit ((st.epoch + 1) % 2 ^ w) st.epoch = true := by
  constructor
  · simp [stepWait, hlast]
  · have h2 : 2 ≤ 2 ^ w := by
      calc 2 = 2 ^ 1 := by norm_num
      _ ≤ 2 ^ w := Nat.pow_le_pow_right (by norm_num) hw
    have : (st.epoch + 1) % 2 ^ w ≠ st.epoch := by
      rcases Nat.lt_or_ge (st.epoch + 1) (2 ^ w) with hlt | hge
      · rw [Nat.mod_eq_of_lt hlt]; omega
      · have heq : st.epoch + 1 = 2 ^ w := by omega
        rw [heq, Nat.mod_self]; omega
    simpa [stepSpinExit] using this

/-- C6 witness: the wraparound phase itself, with an 8-bit epoch at its
maximal value `255`. -/
theorem step_barrier_wait_wraparound_witness :
    (1 ≤ 8 ∧ ¬ (3 : Int) < 4 - 1 ∧ 255 < 2 ^ 8) ∧
    (stepWait 8 4 ⟨3, 255⟩ = .releases ⟨0, (255 + 1) % 2 ^ 8⟩ ∧
     stepSpinExit ((255 + 1) % 2 ^ 8) 255 = true) :=
  ⟨by decide,
   step_barrier_wait_wraparound 8 (by decide) 4 ⟨3, 255⟩ (by decide) (by decide)⟩

/-- C10. A call to `Wait` with `num_threads <= 1` on a quiescent barrier
(`spinning_threads_ == 0`) takes the last-arrival branch in both variants:
the pre-increment value `0` is not below `num_threads - 1`, so the caller
never enters the spin loop (hence never invokes the waiting policy), the
spinning counter is stored back as `0`, and the epoch still advances (the
bitwise complement of `sense_`, resp. `step_ + 1 mod 2^w`). -/
theorem single_participant_wait_never_spins (w : Nat) (numThreads : Int)
    (st : BarrierState) (hquiet : st.spinning = 0) (hn : numThreads ≤ 1) :
    senseWait w numThreads st = .releases ⟨0, 2 ^ w - 1 - st.epoch⟩ ∧
    senseWait w numThreads st ≠ .spins ∧
    stepWait w numThreads st = .releases ⟨0, (st.epoch + 1) % 2 ^ w⟩ ∧
    stepWait w numThreads st ≠ .spins := by
  have hlt : ¬ st.spinning < numThreads - 1 := by rw [hquiet]; omega
  refine ⟨by simp [senseWait, hlt], ?_, by simp [stepWait, hlt], ?_⟩
  · simp [senseWait, hlt]
  · simp [stepWait, hlt]

/-- C10 witness: a 32-bit barrier with a single declared participant. -/
theorem single_participant_wait_never_spins_witness :
    ((⟨0, 5⟩ : BarrierState).spinning = 0 ∧ (1 : Int) ≤ 1) ∧
    (senseWait 32 1 ⟨0, 5⟩ = .releases ⟨0, 2 ^ 32 - 1 - 5⟩ ∧
     senseWait 32 1 ⟨0, 5⟩ ≠ .spins ∧
     stepWait 32 1 ⟨0, 5⟩ = .releases ⟨0, (5 + 1) % 2 ^ 32⟩ ∧
     stepWait 32 1 ⟨0, 5⟩ ≠ .spins) :=
  ⟨⟨rfl, by decide⟩,
   single_participant_wait_never_spins 32 1 ⟨0, 5⟩ rfl (by decide)⟩

/-! ### Lemmas for the lock-free stage-counter protocol -/

theorem length_bumpCount (c : List Nat) (s : Nat) :
    (bumpCount c s).length = c.length := by
  simp [bumpCount]

theorem getD_bumpCount_self (c : List Nat) (s : Nat) (h : s < c.length) :
    (bumpCount c s).getD s 0 = c.getD s 0 + 1 := by
  simp [bumpCount, List.getD_eq_getElem?_getD, List.getElem?_set_self, h]

theorem getD_bumpCount_ne (c : List Nat) (s t : Nat) (h : t ≠ s) :
    (bumpCount c s).getD t 0 = c.getD t 0 := by
  simp [bumpCount, List.getD_eq_getElem?_getD, List.getElem?_set_ne (Ne.symm h)]

theorem getD_bumpCount (c : List Nat) (s t : Nat) (hs : s < c.length) :
    (bumpCount c s).getD t 0 = c.getD t 0 + (if t = s then 1 else 0) := by
  by_cases h : t = s
  · subst h; rw [getD_bumpCount_self c t hs, if_pos rfl]
  · rw [getD_bumpCount_ne c s t h, if_neg h]
    omega

theorem completedStages_parts (s : Nat) (counts : List Nat)
    (pre post : List WState) (ws : WState) :
    completedStages s ⟨counts, pre ++ ws :: post⟩ =
      (pre.map (doneTouch s)).sum + doneTouch s ws +
        (post.map (doneTouch s)).sum := by
  simp [completedStages, List.map_append, List.sum_append]
  omega

theorem doneTouch_snoc (s : Nat) (stage stg : Nat)
    (done rest rst : List Instr) (ins : Instr) :
    doneTouch s ⟨stg, done ++ [ins], rst⟩ =
      doneTouch s ⟨stage, done, rest⟩ + (if touches s ins then 1 else 0) := by
  simp only [doneTouch, List.filter_append, List.length_append]
  cases h : touches s ins <;> simp [h]

theorem touches_sortSeg (s a : Nat) :
    touches s (.sortSeg a) = decide (a = s) := by
  by_cases h : a = s <;> simp [touches, h]

theorem touches_mergeSeg (s a b : Nat) :
    touches s (.mergeSeg a b) = (decide (a = s) || decide (b = s)) := by
  by_cases h1 : a = s <;> by_cases h2 : b = s <;> simp [touches, h1, h2]

/-- One interleaving step preserves the counter invariant and the pending
wellformedness. -/
theorem step_preserves_inv (n : Nat) (st st' : LFState) (h : Step st st')
    (hinv : CountInv n st ∧ TodoWF n st) : CountInv n st' ∧ TodoWF n st' := by
  obtain ⟨⟨hlen, hcnt⟩, hwf⟩ := hinv
  cases h with
  | sortSeg counts pre post stage done s rest =>
    have hmemw : (⟨stage, done, .sortSeg s :: rest⟩ : WState) ∈
        pre ++ ⟨stage, done, .sortSeg s :: rest⟩ :: post :=
      List.mem_append.mpr (Or.inr (List.mem_cons_self _ _))
    have hwfi : instrWF n (.sortSeg s) = true :=
      hwf _ hmemw _ (List.mem_cons_self _ _)
    have hs : s < n := by simpa [instrWF] using hwfi
    simp only [CountInv, TodoWF] at hlen hcnt ⊢
    refine ⟨⟨by simpa [length_bumpCount] using hlen, ?_⟩, ?_⟩
    · intro t ht
      rw [getD_bumpCount counts s t (by omega)]
      rw [completedStages_parts,
        doneTouch_snoc t stage stage done (Instr.sortSeg s :: rest) rest]
      have hold := hcnt t ht
      rw [completedStages_parts] at hold
      simp only [List.getD_eq_getElem?_getD] at hold ⊢
      rw [touches_sortSeg]
      by_cases he : t = s
      · subst he; simp; omega
      · simp [he, Ne.symm he]; omega
    · intro ws hmem ins hins
      rcases List.mem_append.mp hmem with hpre | hrest
      · exact hwf ws (List.mem_append.mpr (Or.inl hpre)) ins hins
      · rcases List.mem_cons.mp hrest with heq | hpost
        · subst heq
          exact hwf _ hmemw ins (List.mem_cons_of_mem _ hins)
        · exact hwf ws (List.mem_append.mpr (Or.inr (List.mem_cons_of_mem _ hpost)))
            ins hins
  | bumpStage counts pre post stage done rest =>
    have hmemw : (⟨stage, done, .bumpStage :: rest⟩ : WState) ∈
        pre ++ ⟨stage, done, .bumpStage :: rest⟩ :: post :=
      List.mem_append.mpr (Or.inr (List.mem_cons_self _ _))
    simp only [CountInv, TodoWF] at hlen hcnt ⊢
    refine ⟨⟨hlen, ?_⟩, ?_⟩
    · intro t ht
      rw [completedStages_parts,
        doneTouch_snoc t stage (stage + 1) done (Instr.bumpStage :: rest) rest]
      have hold := hcnt t ht
      rw [completedStages_parts] at hold
      simp only [List.getD_eq_getElem?_getD] at hold ⊢
      simp [touches]
      omega
    · intro ws hmem ins hins
      rcases List.mem_append.mp hmem with hpre | hrest
      · exact hwf ws (List.mem_append.mpr (Or.inl hpre)) ins hins
      · rcases List.mem_cons.mp hrest with heq | hpost
        · subst heq
          exact hwf _ hmemw ins (List.mem_cons_of_mem _ hins)
        · exact hwf ws (List.mem_append.mpr (Or.inr (List.mem_cons_of_mem _ hpost)))
            ins hins
  | mergeSeg counts pre post stage done s1 s2 rest hobs1 hobs2 =>
    have hmemw : (⟨stage, done, .mergeSeg s1 s2 :: rest⟩ : WState) ∈
        pre ++ ⟨stage, done, .mergeSeg s1 s2 :: rest⟩ :: post :=
      List.mem_append.mpr (Or.inr (List.mem_cons_self _ _))
    have hwfi : instrWF n (.mergeSeg s1 s2) = true :=
      hwf _ hmemw _ (List.mem_cons_self _ _)
    have hne : s1 ≠ s2 := by
      simp [instrWF, Bool.and_eq_true] at hwfi
      exact hwfi.1.1
    have hs1 : s1 < n := by
      simp [instrWF, Bool.and_eq_true] at hwfi
      exact hwfi.1.2
    have hs2 : s2 < n := by
      simp [instrWF, Bool.and_eq_true] at hwfi
      exact hwfi.2
    simp only [CountInv, TodoWF] at hlen hcnt ⊢
    refine ⟨⟨by simp [length_bumpCount]; omega, ?_⟩, ?_⟩
    · intro t ht
      rw [getD_bumpCount (bumpCount counts s1) s2 t (by simp [length_bumpCount]; omega)]
      rw [getD_bumpCount counts s1 t (by omega)]
      rw [completedStages_parts,
        doneTouch_snoc t stage stage done (Instr.mergeSeg s1 s2 :: rest) rest]
      have hold := hcnt t ht
      rw [completedStages_parts] at hold
      simp only [List.getD_eq_getElem?_getD] at hold ⊢
      rw [touches_mergeSeg]
      by_cases h1 : t = s1
      · subst h1
        simp [hne, Ne.symm hne]
        omega
      · by_cases h2 : t = s2
        · subst h2
          simp [h1, Ne.symm h1]
          omega
        · simp [h1, h2, Ne.symm h1, Ne.symm h2]
          omega
    · intro ws hmem ins hins
      rcases List.mem_append.mp hmem with hpre | hrest
      · exact hwf ws (List.mem_append.mpr (Or.inl hpre)) ins hins
      · rcases List.mem_cons.mp hrest with heq | hpost
        · subst heq
          exact hwf _ hmemw ins (List.mem_cons_of_mem _ hins)
        · exact hwf ws (List.mem_append.mpr (Or.inr (List.mem_cons_of_mem _ hpost)))
            ins hins

theorem mergeRow_wf (m j low cnt : Nat) (hj : j < 2 ^ m)
    (hbound : low + cnt ≤ 2 ^ m) :
    ∀ ins ∈ mergeRow j low cnt, instrWF (2 ^ m) ins = true := by
  intro ins hins
  simp only [mergeRow, List.mem_filterMap] at hins
  obtain ⟨i, hi, hcond⟩ := hins
  have hirange := List.mem_range'_1.mp hi
  by_cases hlt : i < i ^^^ j
  · rw [if_pos hlt] at hcond
    obtain rfl := Option.some_injective _ hcond
    have hin : i < 2 ^ m := by omega
    have hxn : i ^^^ j < 2 ^ m := Nat.xor_lt_two_pow hin hj
    simp [instrWF, Bool.and_eq_true]
    omega
  · rw [if_neg hlt] at hcond
    exact absurd hcond (Option.noConfusion)

theorem jInstrsF_wf (m low cnt : Nat) (hbound : low + cnt ≤ 2 ^ m) :
    ∀ fuel j, j < 2 ^ m → ∀ ins ∈ jInstrsF fuel j low cnt,
      instrWF (2 ^ m) ins = true := by
  intro fuel
  induction fuel with
  | zero => intro j hj ins hins; simp [jInstrsF] at hins
  | succ fuel ih =>
    intro j hj ins hins
    cases j with
    | zero => simp [jInstrsF] at hins
    | succ j =>
      simp only [jInstrsF, List.mem_append, List.mem_cons] at hins
      rcases hins with h | h | h
      · exact mergeRow_wf m (j + 1) low cnt hj hbound ins h
      · subst h; rfl
      · exact ih ((j + 1) / 2) (by omega) ins h

theorem kInstrsF_wf (m low cnt : Nat) (hbound : low + cnt ≤ 2 ^ m) :
    ∀ fuel k, 1 ≤ k → ∀ ins ∈ kInstrsF (2 ^ m) fuel k low cnt,
      instrWF (2 ^ m) ins = true := by
  intro fuel
  induction fuel with
  | zero => intro k hk ins hins; simp [kInstrsF] at hins
  | succ fuel ih =>
    intro k hk ins hins
    simp only [kInstrsF] at hins
    by_cases hkn : k ≤ 2 ^ m
    · rw [if_pos hkn] at hins
      rcases List.mem_append.mp hins with h | h
      · exact jInstrsF_wf m low cnt hbound (k / 2) (k / 2) (by omega) ins h
      · exact ih (2 * k) (by omega) ins h
    · rw [if_neg hkn] at hins
      simp at hins

theorem workerProgram_wf (n T m w : Nat) (hm : n = 2 ^ m) (hT : 0 < T)
    (hdvd : T ∣ n) (hw : w < T) :
    ∀ ins ∈ workerProgram n T w, instrWF n ins = true := by
  intro ins hins
  have hmul : T * (n / T) = n := Nat.mul_div_cancel' hdvd
  have hbound : w * (n / T) + n / T ≤ n := by
    have h1 : (w + 1) * (n / T) ≤ T * (n / T) :=
      Nat.mul_le_mul_right (n / T) (by omega)
    have h2 : (w + 1) * (n / T) = w * (n / T) + n / T := by ring
    omega
  simp only [workerProgram, List.mem_append, List.mem_cons] at hins
  rcases hins with h | h | h
  · simp only [List.mem_map] at h
    obtain ⟨seg, hseg, rfl⟩ := h
    have := List.mem_range'_1.mp hseg
    simp [instrWF]
    omega
  · subst h; rfl
  · subst hm
    exact kInstrsF_wf m _ _ hbound (2 ^ m) 2 (by omega) ins h

theorem initState_inv (n T m : Nat) (hm : n = 2 ^ m) (hT : 0 < T)
    (hdvd : T ∣ n) :
    CountInv n (initState n T) ∧ TodoWF n (initState n T) := by
  refine ⟨⟨by simp [initState], ?_⟩, ?_⟩
  · intro s hs
    have hget : (List.replicate n (0 : Nat)).getD s 0 = 0 := by
      simp [List.getD_eq_getElem?_getD, List.getElem?_replicate]
      split <;> rfl
    have hdone : ∀ ws ∈ (initState n T).workers, doneTouch s ws = 0 := by
      intro ws hws
      simp only [initState, List.mem_map] at hws
      obtain ⟨w, _, rfl⟩ := hws
      rfl
    show (List.replicate n (0 : Nat)).getD s 0 = completedStages s (initState n T)
    rw [hget]
    unfold completedStages
    have : ((initState n T).workers.map (doneTouch s)) =
        (initState n T).workers.map (fun _ => 0) :=
      List.map_congr_left (fun ws hws => hdone ws hws)
    rw [this]
    simp
  · intro ws hws ins hins
    simp only [initState, List.mem_map] at hws
    obtain ⟨w, hwmem, rfl⟩ := hws
    exact workerProgram_wf n T m w hm hT hdvd (List.mem_range.mp hwmem) ins hins

theorem reachable_inv (n T m : Nat) (hm : n = 2 ^ m) (hT : 0 < T)
    (hdvd : T ∣ n) (st : LFState) (h : Reachable n T st) :
    CountInv n st ∧ TodoWF n st := by
  induction h with
  | refl => exact initState_inv n T m hm hT hdvd
  | tail _ hstep ih => exact step_preserves_inv n _ _ hstep ih

theorem step_shapes (st st' : LFState) (h : Step st st') :
    SortShape st st' ∨ BumpShape st st' ∨ MergeShape st st' := by
  cases h with
  | sortSeg counts pre post stage done s rest =>
    exact Or.inl ⟨counts, pre, post, stage, done, s, rest, rfl, rfl⟩
  | bumpStage counts pre post stage done rest =>
    exact Or.inr (Or.inl ⟨counts, pre, post, stage, done, rest, rfl, rfl⟩)
  | mergeSeg counts pre post stage done s1 s2 rest hobs1 hobs2 =>
    exact Or.inr (Or.inr
      ⟨counts, pre, post, stage, done, s1, s2, rest, rfl, hobs1, hobs2, rfl⟩)

/-! ### Lemmas for the stage count -/

theorem jStageCountF_zero (fuel : Nat) : jStageCountF fuel 0 = 0 := by
  cases fuel <;> rfl

theorem jStageCountF_pow (b : Nat) :
    ∀ fuel, b + 1 ≤ fuel → jStageCountF fuel (2 ^ b) = b + 1 := by
  induction b with
  | zero =>
    intro fuel hf
    match fuel, hf with
    | f + 1, _ =>
      show 1 + jStageCountF f 0 = 1
      rw [jStageCountF_zero]
  | succ b ih =>
    intro fuel hf
    match fuel, hf with
    | f + 1, hf =>
      have hpos : 1 ≤ 2 ^ (b + 1) := Nat.one_le_two_pow
      have hshape : 2 ^ (b + 1) = (2 ^ (b + 1) - 1) + 1 := by omega
      rw [hshape]
      show 1 + jStageCountF f ((2 ^ (b + 1) - 1 + 1) / 2) = b + 1 + 1
      rw [← hshape]
      have hhalf : 2 ^ (b + 1) / 2 = 2 ^ b := by
        rw [pow_succ]
        exact Nat.mul_div_cancel _ (by norm_num)
      rw [hhalf, ih f (by omega)]
      omega

theorem kStageCountF_gt (n : Nat) :
    ∀ fuel k, n < k → kStageCountF n fuel k = 0 := by
  intro fuel k hk
  cases fuel with
  | zero => rfl
  | succ fuel => simp [kStageCountF, Nat.not_le.mpr hk]

theorem kStageCountF_pow (a d n : Nat) (ha : 1 ≤ a) (hn : n = 2 ^ (a + d)) :
    ∀ fuel, d + 1 ≤ fuel →
      kStageCountF n fuel (2 ^ a) = ∑ t ∈ Finset.range (d + 1), (a + t) := by
  subst hn
  induction d generalizing a with
  | zero =>
    intro fuel hf
    match fuel, hf with
    | f + 1, _ =>
      have hle : 2 ^ (a + 0) ≤ 2 ^ (a + 0) := le_rfl
      have hhalf : 2 ^ a / 2 = 2 ^ (a - 1) := by
        conv_lhs => rw [show a = (a - 1) + 1 by omega, pow_succ]
        exact Nat.mul_div_cancel _ (by norm_num)
      have hgt : 2 ^ (a + 0) < 2 * 2 ^ a := by
        rw [Nat.add_zero]
        have hp : 1 ≤ 2 ^ a := Nat.one_le_two_pow
        omega
      show (if 2 ^ a ≤ 2 ^ (a + 0) then
          jStageCountF (2 ^ a / 2) (2 ^ a / 2) + kStageCountF (2 ^ (a + 0)) f (2 * 2 ^ a)
        else 0) = _
      rw [if_pos (by rw [Nat.add_zero]), kStageCountF_gt _ f _ hgt, hhalf]
      rw [jStageCountF_pow (a - 1) (2 ^ (a - 1)) (by have := Nat.lt_two_pow (a - 1); omega)]
      simp
      omega
  | succ d ih =>
    intro fuel hf
    match fuel, hf with
    | f + 1, hf =>
      have hle : 2 ^ a ≤ 2 ^ (a + (d + 1)) := Nat.pow_le_pow_right (by norm_num) (by omega)
      have hhalf : 2 ^ a / 2 = 2 ^ (a - 1) := by
        conv_lhs => rw [show a = (a - 1) + 1 by omega, pow_succ]
        exact Nat.mul_div_cancel _ (by norm_num)
      show (if 2 ^ a ≤ 2 ^ (a + (d + 1)) then
          jStageCountF (2 ^ a / 2) (2 ^ a / 2) +
            kStageCountF (2 ^ (a + (d + 1))) f (2 * 2 ^ a)
        else 0) = _
      rw [if_pos hle, hhalf]
      rw [jStageCountF_pow (a - 1) (2 ^ (a - 1)) (by have := Nat.lt_two_pow (a - 1); omega)]
      have h2a : 2 * 2 ^ a = 2 ^ (a + 1) := by rw [pow_succ]; ring
      have hexp : 2 ^ (a + (d + 1)) = 2 ^ ((a + 1) + d) := by congr 1; omega
      rw [h2a, hexp, ih (a + 1) (by omega) f (by omega)]
      rw [Finset.sum_range_succ' (fun t => a + t) (d + 1)]
      have : ∀ t, a + 1 + t = a + (t + 1) := by intro t; omega
      simp only [this]
      omega

theorem twice_sum_range_one_add (m : Nat) :
    2 * (∑ t ∈ Finset.range m, (1 + t)) = m * (m + 1) := by
  induction m with
  | zero => rfl
  | succ m ih =>
    rw [Finset.sum_range_succ, Nat.mul_add, ih]
    ring

theorem sum_range_one_add (m : Nat) :
    (∑ t ∈ Finset.range m, (1 + t)) = m * (m + 1) / 2 := by
  have h := twice_sum_range_one_add m
  have h2 : m * (m + 1) = (∑ t ∈ Finset.range m, (1 + t)) * 2 := by omega
  rw [Nat.div_eq_of_eq_mul_left (by norm_num) h2]

theorem foldl_queuePush_acc (ts : List α) :
    ∀ q : List α, List.foldl queuePush q ts = q ++ List.foldl queuePush [] ts := by
  induction ts with
  | nil => intro q; simp
  | cons t ts ih =>
    intro q
    show List.foldl queuePush (queuePush q t) ts =
      q ++ List.foldl queuePush (queuePush [] t) ts
    rw [ih (queuePush q t), ih (queuePush [] t)]
    simp [queuePush]

/-- C5. In the lock-free sort, modelled as the interleaving step relation
`Step` over worker states and the shared counter vector: every state
reachable from the initial state satisfies the invariant that
`segment_stage_count[seg]` equals the number of stages segment `seg` has
completed (its local sort plus the merges already performed that involve
it), together with the wellformedness of all pending actions; and every
step is a local sort, a `my_stage` increment at the end of a `(k, j)`
round, or a merge of a pair `(i, i XOR j)` that fires only after the
worker observed both segment counters equal to its private `my_stage` and
that increments both counters. -/
theorem lockfree_stage_counter_protocol (n T m : Nat) (hm : n = 2 ^ m)
    (hT : 0 < T) (hdvd : T ∣ n) :
    (∀ st, Reachable n T st → CountInv n st ∧ TodoWF n st) ∧
    (∀ st st', Step st st' →
      SortShape st st' ∨ BumpShape st st' ∨ MergeShape st st') :=
  ⟨fun st h => reachable_inv n T m hm hT hdvd st h,
   fun st st' h => step_shapes st st' h⟩

/-- C5 witness: the protocol invariant evaluated at the initial state of a
one-worker, two-segment instance. -/
theorem lockfree_stage_counter_protocol_witness :
    ((2 : Nat) = 2 ^ 1 ∧ 0 < 1 ∧ (1 : Nat) ∣ 2) ∧
    (CountInv 2 (initState 2 1) ∧ TodoWF 2 (initState 2 1)) :=
  ⟨⟨by decide, by decide, ⟨2, by decide⟩⟩,
   (lockfree_stage_counter_protocol 2 1 1 (by decide) (by decide)
       ⟨2, by decide⟩).1 (initState 2 1) Relation.ReflTransGen.refl⟩

/-- C7. For `num_segments = 2^m` with `m ≥ 1`, the loop nest
`for (k = 2, 4, ..., num_segments) for (j = k/2, ..., 1)` of the bitonic
merging network executes exactly `m * (m + 1) / 2` `(k, j)` stages beyond
the initial local-sort stage — equivalently, each blocking-mode worker
performs exactly that many end-of-stage barrier waits after the
post-local-sort barrier. -/
theorem network_stage_count_formula (m : Nat) (hm : 1 ≤ m) :
    networkStageCount (2 ^ m) = m * (m + 1) / 2 := by
  unfold networkStageCount
  calc kStageCountF (2 ^ m) (2 ^ m) 2
      = kStageCountF (2 ^ m) (2 ^ m) (2 ^ 1) := by norm_num
    _ = ∑ t ∈ Finset.range ((m - 1) + 1), (1 + t) :=
        kStageCountF_pow 1 (m - 1) (2 ^ m) le_rfl (by congr 1; omega) (2 ^ m)
          (by have := Nat.lt_two_pow m; omega)
    _ = ∑ t ∈ Finset.range m, (1 + t) := by rw [show (m - 1) + 1 = m by omega]
    _ = m * (m + 1) / 2 := sum_range_one_add m

/-- C7 witness: eight segments give `3 * 4 / 2 = 6` merge stages. -/
theorem network_stage_count_formula_witness :
    (1 ≤ 3) ∧ networkStageCount (2 ^ 3) = 3 * (3 + 1) / 2 :=
  ⟨by decide, network_stage_count_formula 3 (by decide)⟩

/-- C8. `Pop` on a queue built from a nonempty sequence of pushes removes
and returns the front (oldest) task; `Pop` on the empty queue returns the
null sentinel (`none`) and leaves the queue unchanged. Both branches are
plain returns under the mutex: `Pop` never waits for a producer. -/
theorem queue_pop_front_or_sentinel (t : α) (ts : List α) :
    queuePop (List.foldl queuePush [] (t :: ts)) =
      (some t, List.foldl queuePush [] ts) ∧
    queuePop ([] : List α) = (none, ([] : List α)) := by
  constructor
  · show queuePop (List.foldl queuePush (queuePush [] t) ts) = _
    rw [foldl_queuePush_acc ts (queuePush [] t)]
    simp [queuePush, queuePop]
  · rfl

/-- C9. `Scatter` copies `size * sizeof(int)` bytes into each segment, so
for element widths of at least `sizeof(int) = 4` the write-back covers the
complete segments exactly when the width is `4`; for a strictly wider
element type only a proper prefix of each segment is overwritten and the
old tail survives. -/
theorem scatter_counts_int_bytes (tBytes size : Nat) (ht : 4 ≤ tBytes)
    (hs : 1 ≤ size) :
    ((∀ buffer seg1 seg2 : List Nat,
        buffer.length = 2 * (size * tBytes) →
        seg1.length = size * tBytes → seg2.length = size * tBytes →
        (ScatterBytes tBytes buffer seg1 seg2 size).1 =
            buffer.take (size * tBytes) ∧
        (ScatterBytes tBytes buffer seg1 seg2 size).2 =
            buffer.drop (size * tBytes)) ↔ tBytes = 4) ∧
    (4 < tBytes → ∀ buffer seg1 seg2 : List Nat,
        seg1.length = size * tBytes →
        (ScatterBytes tBytes buffer seg1 seg2 size).1 =
            buffer.take (size * 4) ++ seg1.drop (size * 4) ∧
        seg1.drop (size * 4) ≠ []) := by
  have hdroplen : ∀ tB : Nat, 4 < tB → ∀ seg1 : List Nat,
      seg1.length = size * tB → seg1.drop (size * 4) ≠ [] := by
    intro tB htB seg1 hlen he
    have h5 : size * 5 ≤ size * tB := Nat.mul_le_mul_left size htB
    have hlt : size * 4 < size * tB := by
      have : size * 5 = size * 4 + size := by ring
      omega
    have := congrArg List.length he
    simp [hlen] at this
    omega
  constructor
  · constructor
    · intro hall
      by_contra h4
      have htB : 4 < tBytes := lt_of_le_of_ne ht (fun h => h4 h.symm)
      have hlt : size * 4 < size * tBytes := by
        have h5 : size * 5 ≤ size * tBytes := Nat.mul_le_mul_left size htB
        have : size * 5 = size * 4 + size := by ring
        omega
      obtain ⟨h1, _⟩ := hall (List.replicate (2 * (size * tBytes)) 0)
        (List.replicate (size * tBytes) 1) (List.replicate (size * tBytes) 1)
        (by simp) (by simp) (by simp)
      have hmem : (1 : Nat) ∈ (ScatterBytes tBytes
          (List.replicate (2 * (size * tBytes)) 0)
          (List.replicate (size * tBytes) 1)
          (List.replicate (size * tBytes) 1) size).1 := by
        show (1 : Nat) ∈ (List.replicate (2 * (size * tBytes)) 0).take (size * 4) ++
          (List.replicate (size * tBytes) 1).drop (size * 4)
        refine List.mem_append.mpr (Or.inr ?_)
        rw [List.drop_replicate]
        exact List.mem_replicate.mpr ⟨by omega, rfl⟩
      rw [h1] at hmem
      rw [List.take_replicate] at hmem
      exact absurd (List.eq_of_mem_replicate hmem) (by norm_num)
    · intro h4
      subst h4
      intro buffer seg1 seg2 hb h1 h2
      constructor
      · show buffer.take (size * 4) ++ seg1.drop (size * 4) = _
        rw [List.drop_eq_nil_of_le (le_of_eq h1), List.append_nil]
      · show (buffer.drop (size * 4)).take (size * 4) ++ seg2.drop (size * 4) = _
        rw [List.drop_eq_nil_of_le (le_of_eq h2), List.append_nil]
        refine List.take_of_length_le ?_
        rw [List.length_drop, hb]
        omega
  · intro htB buffer seg1 seg2 h1
    exact ⟨rfl, hdroplen tBytes htB seg1 h1⟩

/-- C9 witness: one `int`-wide instance (`tBytes = 4`) at `size = 1`. -/
theorem scatter_counts_int_bytes_witness :
    ((4 : Nat) ≤ 4 ∧ (1 : Nat) ≤ 1) ∧
    (((∀ buffer seg1 seg2 : List Nat,
        buffer.length = 2 * (1 * 4) →
        seg1.length = 1 * 4 → seg2.length = 1 * 4 →
        (ScatterBytes 4 buffer seg1 seg2 1).1 = buffer.take (1 * 4) ∧
        (ScatterBytes 4 buffer seg1 seg2 1).2 = buffer.drop (1 * 4)) ↔
          (4 : Nat) = 4) ∧
     (4 < 4 → ∀ buffer seg1 seg2 : List Nat,
        seg1.length = 1 * 4 →
        (ScatterBytes 4 buffer seg1 seg2 1).1 =
            buffer.take (1 * 4) ++ seg1.drop (1 * 4) ∧
        seg1.drop (1 * 4) ≠ [])) :=
  ⟨⟨le_refl 4, le_refl 1⟩, scatter_counts_int_bytes 4 1 (le_refl 4) (le_refl 1)⟩

end Modcncy
